import Mathlib

/-!
Verification of the LiCSBAS 2-pi unwrapping-error correction stage
(bin/LiCSBAS132_3D_correction.py, with the shared algorithm of
bin/LiCSBAS_3D_correction.py).

Rasters are modelled as flat lists of optional rationals: a `none` entry
models a NaN (masked) pixel, and every numpy reduction used by the script
(nanmean, histogram, argmax, round, unique, scipy.stats.mode) is
transcribed over this representation with exact rational arithmetic.
The float constant `np.pi` and the radar scale factor `coef_r2m` are
carried as rational parameters.  RMS comparisons `np.sqrt(m) < t` are
decided through the equivalent rational test (see `rms_lt_some_iff` and
`rms_gt_some_iff`), keeping the decision procedure executable.
-/

namespace Licsbas

/-- A raster pixel: a value, or `none` for a NaN (masked) pixel. -/
abbrev Pixel := Option ℚ

/-- A raster, stored as the flattened pixel list of a 2D float array. -/
abbrev Raster := List Pixel

/-- Elementwise subtraction with NaN propagation (numpy `a - b`). -/
def pix_sub : Pixel → Pixel → Pixel
  | some a, some b => some (a - b)
  | _, _ => none

/-- Raster subtraction, elementwise (numpy broadcasting on equal shapes). -/
def raster_sub (a b : Raster) : Raster := List.zipWith pix_sub a b

/-- Elementwise square with NaN propagation (numpy `x ** 2`). -/
def raster_sq (r : Raster) : Raster := r.map (Option.map (fun v => v * v))

/-- The finite (non-NaN) values of a raster, in pixel order. -/
def valid_values (r : Raster) : List ℚ := r.filterMap id

/-- numpy `np.nanmean`: mean over non-NaN entries, NaN (`none`) when no
entry is finite. -/
def nanmean (r : Raster) : Option ℚ :=
  if valid_values r = [] then none
  else some ((valid_values r).sum / ((valid_values r).length : ℚ))

/-- The mean square `np.nanmean(r ** 2)` feeding each RMS in the script;
the script always takes `np.sqrt` of this quantity before comparing. -/
def res_rms_of (r : Raster) : Option ℚ := nanmean (raster_sq r)

/-- Decides `np.sqrt m < t` for a mean square `m`: false on NaN (IEEE),
and otherwise equivalent to `0 < t ∧ m < t * t` (see `rms_lt_some_iff`). -/
def rms_lt (m : Option ℚ) (t : ℚ) : Bool :=
  match m with
  | none => false
  | some q => decide (0 < t) && decide (q < t * t)

/-- Decides `np.sqrt m > t` for a mean square `m`: false on NaN (IEEE),
and otherwise equivalent to `t < 0 ∨ t * t < m` (see `rms_gt_some_iff`). -/
def rms_gt (m : Option ℚ) (t : ℚ) : Bool :=
  match m with
  | none => false
  | some q => decide (t < 0) || decide (t * t < q)

/-- numpy `np.round`: round half to even, NaN-free scalar case. -/
def np_round (q : ℚ) : ℤ :=
  let f := Int.floor q
  if q - (f : ℚ) < 1 / 2 then f
  else if (1 : ℚ) / 2 < q - (f : ℚ) then f + 1
  else if f % 2 = 0 then f else f + 1

/-- `np.round(res_num_2pi)`: per-pixel nearest integer, NaN preserved. -/
def round_raster (cycles : Raster) : Raster :=
  cycles.map (Option.map (fun q => ((np_round q : ℤ) : ℚ)))

/-- numpy `astype(int)`: truncation toward zero (the values fed to it by
the script are already integral, so any convention coincides). -/
def astype_int (q : ℚ) : ℤ := if 0 ≤ q then Int.floor q else -Int.floor (-q)

/-- Insertion of an element into a sorted list (helper for `sort_list`). -/
def insert_sorted {α : Type} [LinearOrder α] (x : α) : List α → List α
  | [] => [x]
  | y :: ys => if x ≤ y then x :: y :: ys else y :: insert_sorted x ys

/-- Ascending sort, modelling both `np.unique` ordering and `list.sort()`. -/
def sort_list {α : Type} [LinearOrder α] (l : List α) : List α :=
  l.foldr insert_sorted []

/-- numpy `np.unique`: the distinct values in ascending order. -/
def np_unique (l : List ℤ) : List ℤ := sort_list l.dedup

/-- The labels the script iterates over: `np.unique(con.flatten())[1:]`,
i.e. every distinct label except the smallest one present. -/
def uniq_components (con : List ℤ) : List ℤ := (np_unique con).drop 1

/-- Largest entry of a list of counts (numpy max over a count array). -/
def fold_max (l : List ℕ) : ℕ := l.foldr Nat.max 0

/-- numpy `argmax`: index of the first occurrence of the maximum. -/
def argmax_first (l : List ℕ) : ℕ := l.findIdx (fun c => c == fold_max l)

/-- The per-value occurrence counts used by `scipy.stats.mode`. -/
def counts_of (l : List ℤ) (u : List ℤ) : List ℕ := u.map (fun v => l.count v)

/-- `scipy.stats.mode(l)[0][0]` (pre-1.9 scipy): the most frequent value,
smallest value among ties; `none` models the crash on an empty input
(the empty `ModeResult` makes the `[0][0]` indexing raise). -/
def stats_mode (l : List ℤ) : Option ℤ :=
  (np_unique l)[argmax_first (counts_of l (np_unique l))]?

/-- `res_integer[con == j]`: the per-pixel rounded values of component `j`. -/
def component_values (resInteger : Raster) (con : List ℤ) (j : ℤ) : List Pixel :=
  (List.zip con resInteger).filterMap (fun p => if p.1 = j then some p.2 else none)

/-- `component_values[~np.isnan(component_values)].astype(int)`. -/
def component_int_values (resInteger : Raster) (con : List ℤ) (j : ℤ) : List ℤ :=
  ((component_values resInteger con j).filterMap id).map astype_int

/-- `res_mode[con == j] = mode`: overwrite the pixels of component `j`. -/
def assign_mode (con : List ℤ) (j : ℤ) (m : ℚ) (acc : Raster) : Raster :=
  (List.zip con acc).map (fun p => if p.1 = j then some m else p.2)

/-- One iteration of the component-mode loop body (lines 329-332). -/
def mode_step (resInteger : Raster) (con : List ℤ) (acc : Raster) (j : ℤ) : Option Raster :=
  (stats_mode (component_int_values resInteger con j)).map
    (fun m => assign_mode con j (m : ℚ) acc)

/-- The component-mode field `res_mode` (lines 326-332): start from
`copy.copy(res_integer)` and overwrite each component of
`np.unique(con)[1:]` with its `stats.mode`; `none` models the uncaught
exception when some component has no valid value. -/
def build_res_mode (resInteger : Raster) (con : List ℤ) : Option Raster :=
  (uniq_components con).foldlM (mode_step resInteger con) resInteger

/-- One corrected pixel of `unw - field * 2 * np.pi`. -/
def pix_correct (pi : ℚ) (u f : Pixel) : Pixel :=
  match u, f with
  | some a, some b => some (a - b * 2 * pi)
  | _, _ => none

/-- The corrected unwrapped raster `unw - field * 2 * np.pi`. -/
def unw_correct (pi : ℚ) (unw field : Raster) : Raster :=
  List.zipWith (pix_correct pi) unw field

/-- The four decision categories of `correction_decision`. -/
inductive IfgCategory
  | good
  | bad
  | mode_corrected
  | integer_corrected
deriving DecidableEq, Repr

/-- The outcome for one interferogram: its category, and the raster placed
at the per-pair output location (`none` for `bad`, where nothing is
written; for `good` the input raster itself is hard-linked). -/
structure Decision where
  category : IfgCategory
  output : Option Raster
deriving DecidableEq, Repr

/-- The per-interferogram decision chain of `correction_decision`
(lines 270-355), on a pre-built cycles field: `good` when
`np.sqrt(nanmean(cycles**2)) < correction_thresh`; otherwise `bad` when
the nearest-integer residual RMS exceeds `target_thresh`; otherwise the
component-mode correction when its residual RMS is below `target_thresh`,
else the nearest-integer correction.  `none` models the uncaught
`stats.mode` failure on a component with no valid pixel. -/
def correction_decision (pi correction_thresh target_thresh : ℚ)
    (cycles : Raster) (con : List ℤ) (unw : Raster) : Option Decision :=
  if rms_lt (res_rms_of cycles) correction_thresh then
    some ⟨IfgCategory.good, some unw⟩
  else
    let res_integer := round_raster cycles
    if rms_gt (res_rms_of (raster_sub cycles res_integer)) target_thresh then
      some ⟨IfgCategory.bad, none⟩
    else
      match build_res_mode res_integer con with
      | none => none
      | some res_mode =>
        if rms_lt (res_rms_of (raster_sub cycles res_mode)) target_thresh then
          some ⟨IfgCategory.mode_corrected, some (unw_correct pi unw res_mode)⟩
        else
          some ⟨IfgCategory.integer_corrected, some (unw_correct pi unw res_integer)⟩

/-- Left edge of histogram bin `k`: `np.arange(-2.5, 2.6, 0.1)[k]`. -/
def bin_edge (k : ℕ) : ℚ := -(5 / 2) + (k : ℚ) / 10

/-- Number of values in histogram bin `k` (numpy `np.histogram` semantics:
bins are closed on the left, the final bin also on the right; NaN and
out-of-range values fall in no bin). -/
def bin_count (vals : List ℚ) (k : ℕ) : ℕ :=
  (vals.filter (fun v => decide (bin_edge k ≤ v) &&
    (if k = 49 then decide (v ≤ bin_edge 50) else decide (v < bin_edge (k + 1))))).length

/-- The raw cycles field `res_mm / coef_r2m / 2 / np.pi` (lines 263-264). -/
def raw_cycles (coef pi : ℚ) (resMm : Raster) : Raster :=
  resMm.map (Option.map (fun v => v / coef / 2 / pi))

/-- The 50 bin counts of `np.histogram(res_num_2pi, np.arange(-2.5, 2.6, 0.1))`. -/
def hist_counts (r : Raster) : List ℕ :=
  (List.range 50).map (fun k => bin_count (valid_values r) k)

/-- The recentering offset `bins[counts.argmax()] + 0.05` (line 266). -/
def hist_peak (r : Raster) : ℚ := bin_edge (argmax_first (hist_counts r)) + 1 / 20

/-- The cycles field of lines 263-267: raw cycles minus the histogram peak. -/
def build_cycles (coef pi : ℚ) (resMm : Raster) : Raster :=
  let raw := raw_cycles coef pi resMm
  raw.map (Option.map (fun v => v - hist_peak raw))

/-- Python `even_split(a, n)` (lines 244-248); `none` models the
`ZeroDivisionError` raised by `divmod(len(a), 0)` when the list is empty
or `n` is zero. -/
def even_split {α : Type} (a : List α) (n : ℕ) : Option (List (List α)) :=
  if min n a.length = 0 then none
  else
    let n2 := min n a.length
    let k := a.length / n2
    let m := a.length % n2
    some ((List.range n2).map (fun i =>
      (a.drop (i * k + min i m)).take ((i + 1) * k + min (i + 1) m - (i * k + min i m))))

/-- The dispatch test of `perform_correction` (line 227):
`n_para > 1 and len(res_list) > 100` selects the worker pool, anything
else runs sequentially. -/
def uses_parallel (n_para n_ifgs : ℕ) : Bool :=
  decide (1 < n_para) && decide (100 < n_ifgs)

/-- The mutable category lists and thresholds of the relaxation loop,
over an abstract pair-id type `P`. -/
structure LoopState (P : Type) where
  correction_thresh : ℚ
  target_thresh : ℚ
  good_ifg : List P
  ifg_corrected_by_mode : List P
  ifg_corrected_by_integer : List P
  bad_ifg_not_corrected : List P

/-- One `perform_correction(pairs)` call (lines 203-241), with the pure
per-pair decision abstracted as `d thresholds pair`: the bad list is
reset and rebuilt from this batch, the accepted lists are extended. -/
def classify_batch {P : Type} (d : ℚ → ℚ → P → IfgCategory)
    (s : LoopState P) (pairs : List P) : LoopState P :=
  { s with
    bad_ifg_not_corrected :=
      pairs.filter (fun p =>
        decide (d s.correction_thresh s.target_thresh p = IfgCategory.bad)),
    good_ifg := s.good_ifg ++
      pairs.filter (fun p =>
        decide (d s.correction_thresh s.target_thresh p = IfgCategory.good)),
    ifg_corrected_by_mode := s.ifg_corrected_by_mode ++
      pairs.filter (fun p =>
        decide (d s.correction_thresh s.target_thresh p = IfgCategory.mode_corrected)),
    ifg_corrected_by_integer := s.ifg_corrected_by_integer ++
      pairs.filter (fun p =>
        decide (d s.correction_thresh s.target_thresh p = IfgCategory.integer_corrected)) }

/-- `retained_ifgs = good_ifg + ifg_corrected_by_mode + ifg_corrected_by_integer`. -/
def retained {P : Type} (s : LoopState P) : List P :=
  s.good_ifg ++ s.ifg_corrected_by_mode ++ s.ifg_corrected_by_integer

/-- One body of the `while n_gap > 0` loop (lines 486-494): bump both
thresholds by 0.05 and re-run the batch on the current bad list only. -/
def relax_step {P : Type} (d : ℚ → ℚ → P → IfgCategory) (s : LoopState P) : LoopState P :=
  classify_batch d
    { s with correction_thresh := s.correction_thresh + 1 / 20,
             target_thresh := s.target_thresh + 1 / 20 }
    s.bad_ifg_not_corrected

/-- The fuel-indexed relaxation loop of `main` (lines 485-496): exits as
soon as the gap count is zero, otherwise steps and re-evaluates the
network over the retained set through the abstract evaluator `ev`. -/
def relax_loop {P : Type} (d : ℚ → ℚ → P → IfgCategory) (ev : List P → ℕ × List P) :
    ℕ → LoopState P → ℕ × List P → LoopState P × (ℕ × List P)
  | 0, s, g => (s, g)
  | Nat.succ fuel, s, g =>
    if g.1 = 0 then (s, g)
    else
      let s2 := relax_step d s
      relax_loop d ev fuel s2 (ev (retained s2))

/-- Writing one category report file (`save_lists`, lines 399-424): the
existing file is removed and rewritten, one pair id per line, so the
resulting content is exactly the given list. -/
def write_report {P : Type} (store : String → Option (List P))
    (name : String) (lines : List P) : String → Option (List P) :=
  fun n => if n = name then some lines else store n

/-- The target-threshold selection modes of the `-g` option. -/
inductive TargetMode
  | mode
  | median
  | mean
  | thresh
deriving DecidableEq

/-- The fields of `info/131resid_2pi*.txt` consulted by `get_para`. -/
structure ResidTxt where
  rms_thresh : ℚ
  rms_mode : ℚ
  rms_median : ℚ
  rms_mean : ℚ

/-- The `RMS_<mode>` field selected by the `-g` option. -/
def target_of (f : ResidTxt) : TargetMode → ℚ
  | TargetMode.mode => f.rms_mode
  | TargetMode.median => f.rms_median
  | TargetMode.mean => f.rms_mean
  | TargetMode.thresh => f.rms_thresh

/-- Python truthiness of `args.correction_thresh`: absent or zero is falsy. -/
def truthy : Option ℚ → Bool
  | none => false
  | some c => decide (c ≠ 0)

/-- The threshold selection of `get_para` (lines 180-189): the override is
used for both thresholds when truthy, otherwise the metadata file when
present, otherwise the exception (`none`). -/
def get_para (override : Option ℚ) (residFile : Option ResidTxt) (tmode : TargetMode) :
    Option (ℚ × ℚ) :=
  if truthy override then
    some (override.getD 0, override.getD 0)
  else
    match residFile with
    | some f => some (f.rms_thresh, target_of f tmode)
    | none => none

/-- `plot_networks` (lines 427-465), with the strong/weak separation and
the gap count of the plotted network abstracted: an empty retained set or
an empty strong-link set short-circuits to gap 1 with a dummy empty list. -/
def plot_networks {P : Type} [LinearOrder P] (sep : List P → List P × List P)
    (net_gap : List P → List P → ℕ) (retained_ifgs : List P) : ℕ × List P :=
  if retained_ifgs.length = 0 then (1, [])
  else
    let sorted_ifgs := sort_list retained_ifgs
    let sw := sep sorted_ifgs
    if sw.1.length = 0 then (1, [])
    else (net_gap sorted_ifgs sw.2, sw.1)

/-! ## RMS comparison bridge

The script compares `np.sqrt(mean_square)` against a threshold; the
boolean tests `rms_lt` / `rms_gt` used by the embedding are exactly those
comparisons, as the next two lemmas show. -/

/-- On a finite mean square, `rms_lt` decides exactly `sqrt m < t`. -/
theorem rms_lt_some_iff (q t : ℚ) :
    rms_lt (some q) t = true ↔ Real.sqrt (q : ℝ) < (t : ℝ) := by
  simp only [rms_lt, Bool.and_eq_true, decide_eq_true_eq]
  constructor
  · rintro ⟨ht, hq⟩
    have htR : (0 : ℝ) < (t : ℝ) := by exact_mod_cast ht
    refine (Real.sqrt_lt' htR).mpr ?_
    have hqR : (q : ℝ) < (t : ℝ) * (t : ℝ) := by exact_mod_cast hq
    calc (q : ℝ) < (t : ℝ) * (t : ℝ) := hqR
      _ = (t : ℝ) ^ 2 := by ring
  · intro h
    have htR : (0 : ℝ) < (t : ℝ) := lt_of_le_of_lt (Real.sqrt_nonneg _) h
    have ht : 0 < t := by exact_mod_cast htR
    refine ⟨ht, ?_⟩
    have hsq := (Real.sqrt_lt' htR).mp h
    have hq : (q : ℝ) < (t : ℝ) * (t : ℝ) := by
      calc (q : ℝ) < (t : ℝ) ^ 2 := hsq
        _ = (t : ℝ) * (t : ℝ) := by ring
    exact_mod_cast hq

/-- On a finite mean square, `rms_gt` decides exactly `sqrt m > t`. -/
theorem rms_gt_some_iff (q t : ℚ) :
    rms_gt (some q) t = true ↔ (t : ℝ) < Real.sqrt (q : ℝ) := by
  simp only [rms_gt, Bool.or_eq_true, decide_eq_true_eq]
  constructor
  · rintro (ht | hq)
    · have htR : (t : ℝ) < 0 := by exact_mod_cast ht
      exact lt_of_lt_of_le htR (Real.sqrt_nonneg _)
    · rcases lt_or_le t 0 with ht | ht
      · have htR : (t : ℝ) < 0 := by exact_mod_cast ht
        exact lt_of_lt_of_le htR (Real.sqrt_nonneg _)
      · have htR : (0 : ℝ) ≤ (t : ℝ) := by exact_mod_cast ht
        refine (Real.lt_sqrt htR).mpr ?_
        have hqR : (t : ℝ) * (t : ℝ) < (q : ℝ) := by exact_mod_cast hq
        calc (t : ℝ) ^ 2 = (t : ℝ) * (t : ℝ) := by ring
          _ < (q : ℝ) := hqR
  · intro h
    rcases lt_or_le t 0 with ht | ht
    · exact Or.inl ht
    · right
      have htR : (0 : ℝ) ≤ (t : ℝ) := by exact_mod_cast ht
      have hsq := (Real.lt_sqrt htR).mp h
      have hq : (t : ℝ) * (t : ℝ) < (q : ℝ) := by
        calc (t : ℝ) * (t : ℝ) = (t : ℝ) ^ 2 := by ring
          _ < (q : ℝ) := hsq
      exact_mod_cast hq

/-- C2: for every interferogram whose cycles field has RMS(cycles) below
`correction_thresh`, the decision outcome is `good`, no raster is mutated,
and the raster placed at the output location is the input unwrapped
raster itself, unchanged (the script hard-links it). -/
theorem good_branch_identity (pi ct tt : ℚ) (cycles : Raster) (con : List ℤ)
    (unw : Raster) (q : ℚ) (hq : res_rms_of cycles = some q)
    (h : Real.sqrt (q : ℝ) < (ct : ℝ)) :
    correction_decision pi ct tt cycles con unw =
      some ⟨IfgCategory.good, some unw⟩ := by
  have hb : rms_lt (res_rms_of cycles) ct = true := by
    rw [hq]; exact (rms_lt_some_iff q ct).mpr h
  simp [correction_decision, hb]

/-- Witness for `good_branch_identity` on a concrete one-pixel raster. -/
theorem good_branch_identity_witness :
    correction_decision 3 (1 / 4) (1 / 4) [some (1 / 10)] [1] [some 2] =
      some ⟨IfgCategory.good, some [some 2]⟩ :=
  good_branch_identity 3 (1 / 4) (1 / 4) [some (1 / 10)] [1] [some 2] (1 / 100)
    (by with_unfolding_all decide)
    (by
      rw [show ((1 / 100 : ℚ) : ℝ) = 1 / 100 by norm_num,
          show ((1 / 4 : ℚ) : ℝ) = 1 / 4 by norm_num]
      exact (Real.sqrt_lt' (by norm_num)).mpr (by norm_num))

/-- C1: for every interferogram reaching the mode-vs-integer comparison
(RMS(cycles) not below `correction_thresh`, nearest-integer residual RMS
not above `target_thresh`, and the component-mode field built without
failure), the outcome is `mode_corrected` with output
`unw - res_mode * 2 * pi` exactly when RMS(cycles - res_mode) is below
`target_thresh`, and otherwise `integer_corrected` with output
`unw - res_integer * 2 * pi`; the two boolean-complementary equivalences
make exactly one of the two outcomes occur. -/
theorem mode_vs_integer_exclusive (pi ct tt : ℚ) (cycles : Raster) (con : List ℤ)
    (unw : Raster) (res_mode : Raster)
    (h1 : rms_lt (res_rms_of cycles) ct = false)
    (h2 : rms_gt (res_rms_of (raster_sub cycles (round_raster cycles))) tt = false)
    (h3 : build_res_mode (round_raster cycles) con = some res_mode) :
    (correction_decision pi ct tt cycles con unw =
        some ⟨IfgCategory.mode_corrected, some (unw_correct pi unw res_mode)⟩ ↔
      rms_lt (res_rms_of (raster_sub cycles res_mode)) tt = true) ∧
    (correction_decision pi ct tt cycles con unw =
        some ⟨IfgCategory.integer_corrected,
              some (unw_correct pi unw (round_raster cycles))⟩ ↔
      rms_lt (res_rms_of (raster_sub cycles res_mode)) tt = false) := by
  cases hrm : rms_lt (res_rms_of (raster_sub cycles res_mode)) tt <;>
    simp [correction_decision, h1, h2, h3, hrm]

/-- Witness for `mode_vs_integer_exclusive`: a one-pixel raster at 0.9
cycles is mode-corrected at thresholds 0.25/0.25. -/
theorem mode_vs_integer_exclusive_witness :
    correction_decision 3 (1 / 4) (1 / 4) [some (9 / 10)] [1] [some 2] =
      some ⟨IfgCategory.mode_corrected, some (unw_correct 3 [some 2] [some 1])⟩ :=
  ((mode_vs_integer_exclusive 3 (1 / 4) (1 / 4) [some (9 / 10)] [1] [some 2]
      [some 1] (by with_unfolding_all decide) (by with_unfolding_all decide) (by with_unfolding_all decide)).1).mpr (by with_unfolding_all decide)

/-- C5 (failing input): on an interferogram that reaches the
component-mode stage with a labeled component whose pixels are all NaN,
`stats.mode` receives an empty array and the script fails (no warning is
logged and the per-pixel values are not preserved); the embedding returns
`none` for the whole decision. -/
theorem empty_component_crash :
    correction_decision 3 (1 / 4) (1 / 4) [some (9 / 10), none, some (9 / 10)]
      [0, 1, 2] [some 0, some 0, some 0] = none := by with_unfolding_all decide

/-! ## Histogram peak: argmax facts and the C3 builder specification -/

/-- The maximum over a count list bounds every entry. -/
theorem le_fold_max {l : List ℕ} {x : ℕ} (hx : x ∈ l) : x ≤ fold_max l := by
  induction l with
  | nil => cases hx
  | cons a t ih =>
    rcases List.mem_cons.mp hx with h | h
    · subst h; exact le_max_left _ _
    · exact le_trans (ih h) (le_max_right _ _)

/-- The maximum over a nonempty count list is attained. -/
theorem fold_max_mem (l : List ℕ) (h : l ≠ []) : fold_max l ∈ l := by
  induction l with
  | nil => exact absurd rfl h
  | cons a t ih =>
    cases t with
    | nil => simp [fold_max]
    | cons b u =>
      have hmax : fold_max (a :: b :: u) = a ⊔ fold_max (b :: u) := rfl
      rcases max_choice a (fold_max (b :: u)) with hc | hc
      · rw [hmax, hc]; exact List.mem_cons_self _ _
      · rw [hmax, hc]; exact List.mem_cons_of_mem _ (ih (by simp))

/-- numpy argmax stays within a nonempty array. -/
theorem argmax_first_lt_length (l : List ℕ) (h : l ≠ []) : argmax_first l < l.length :=
  List.findIdx_lt_length_of_exists ⟨fold_max l, fold_max_mem l h, by simp⟩

/-- numpy argmax points at the maximum count. -/
theorem argmax_first_getElem (l : List ℕ) (h : l ≠ []) :
    l[argmax_first l]? = some (fold_max l) := by
  have hlt : argmax_first l < l.length := argmax_first_lt_length l h
  have hpred := @List.findIdx_getElem _ (fun c => c == fold_max l) l hlt
  rw [List.getElem?_eq_getElem hlt]
  exact congrArg some (by simpa using hpred)

/-- Entries before the argmax are strictly below the maximum: numpy argmax
returns the first maximal bin. -/
theorem lt_of_lt_argmax_first {l : List ℕ} {k : ℕ} (hk : k < argmax_first l)
    {x : ℕ} (hx : l[k]? = some x) : x < fold_max l := by
  obtain ⟨hkl, hget⟩ := List.getElem?_eq_some.mp hx
  have hne := @List.not_of_lt_findIdx _ (fun c => c == fold_max l) l k hk
  rw [hget] at hne
  have hxne : x ≠ fold_max l := by simpa using hne
  exact lt_of_le_of_ne (le_fold_max (List.getElem?_mem hx)) hxne

/-- The 50 histogram counts, elementwise. -/
theorem hist_counts_getElem (r : Raster) (k : ℕ) (hk : k < 50) :
    (hist_counts r)[k]? = some (bin_count (valid_values r) k) := by
  simp [hist_counts, List.getElem?_map, List.getElem?_range hk]

/-- Squaring a raster squares exactly its finite values. -/
theorem valid_values_sq (r : Raster) :
    valid_values (raster_sq r) = (valid_values r).map (fun v => v * v) := by
  induction r with
  | nil => rfl
  | cons a t ih =>
    cases a <;> simp [valid_values, raster_sq, List.filterMap_cons] at ih ⊢ <;>
      exact ih

/-- C3: the cycles field is the raw residual divided by `coef_r2m` and by
2 pi, elementwise, recentred by `peak`, where `peak` is the left edge of
the (first) highest-count bin of the 50-bin histogram with edges
-2.5, -2.4, ..., 2.5, plus 0.05; and the mean square behind each reported
RMS is taken over the finite pixels only: it is `sum of squares / count`
over non-NaN values, NaN when no pixel is finite (missing pixels are
excluded, not zero-filled). -/
theorem cycle_field_builder_spec (coef pi : ℚ) (resMm : Raster) :
    (∃ K, K < 50 ∧
      hist_peak (raw_cycles coef pi resMm) = bin_edge K + 1 / 20 ∧
      (∀ k, k < 50 →
        bin_count (valid_values (raw_cycles coef pi resMm)) k ≤
          bin_count (valid_values (raw_cycles coef pi resMm)) K) ∧
      (∀ k, k < K →
        bin_count (valid_values (raw_cycles coef pi resMm)) k <
          bin_count (valid_values (raw_cycles coef pi resMm)) K)) ∧
    build_cycles coef pi resMm =
      resMm.map (Option.map (fun v =>
        v / coef / 2 / pi - hist_peak (raw_cycles coef pi resMm))) ∧
    (∀ r : Raster,
      (∀ x : ℚ, x ∈ valid_values r ↔ some x ∈ r) ∧
      (res_rms_of r = none ↔ valid_values r = []) ∧
      (∀ m, res_rms_of r = some m →
        valid_values r ≠ [] ∧
        m * ((valid_values r).length : ℚ) =
          ((valid_values r).map (fun v => v * v)).sum)) := by
  refine ⟨?_, ?_, ?_⟩
  · set raw := raw_cycles coef pi resMm with hraw
    have hne : hist_counts raw ≠ [] := by simp [hist_counts]
    have hlen : (hist_counts raw).length = 50 := by simp [hist_counts]
    have hKlt : argmax_first (hist_counts raw) < 50 := by
      have := argmax_first_lt_length (hist_counts raw) hne
      simpa [hlen] using this
    have hKget := argmax_first_getElem (hist_counts raw) hne
    have hKbin := hist_counts_getElem raw (argmax_first (hist_counts raw)) hKlt
    rw [hKget] at hKbin
    have hKeq : fold_max (hist_counts raw) =
        bin_count (valid_values raw) (argmax_first (hist_counts raw)) :=
      Option.some.inj hKbin
    refine ⟨argmax_first (hist_counts raw), hKlt, rfl, ?_, ?_⟩
    · intro k hk
      have hkget := hist_counts_getElem raw k hk
      have hmem := List.getElem?_mem hkget
      have hle := le_fold_max hmem
      rw [hKeq] at hle
      exact hle
    · intro k hk
      have hk50 : k < 50 := lt_trans hk hKlt
      have hkget := hist_counts_getElem raw k hk50
      have hlt := lt_of_lt_argmax_first hk hkget
      rw [hKeq] at hlt
      exact hlt
  · simp only [build_cycles, raw_cycles, List.map_map]
    refine List.map_congr_left (fun x _ => ?_)
    cases x <;> simp
  · intro r
    refine ⟨?_, ?_, ?_⟩
    · intro x
      simp [valid_values, List.mem_filterMap]
    · simp only [res_rms_of, nanmean, valid_values_sq]
      by_cases hv : valid_values r = []
      · simp [hv]
      · have hmap : (valid_values r).map (fun v => v * v) ≠ [] := by
          simpa [List.map_eq_nil_iff] using hv
        simp [hmap, hv]
    · intro m hm
      simp only [res_rms_of, nanmean, valid_values_sq] at hm
      by_cases hv : valid_values r = []
      · simp [hv] at hm
      · have hmap : (valid_values r).map (fun v => v * v) ≠ [] := by
          simpa [List.map_eq_nil_iff] using hv
        rw [if_neg hmap] at hm
        have hm2 := Option.some.inj hm
        refine ⟨hv, ?_⟩
        have hlen : ((valid_values r).length : ℚ) ≠ 0 := by
          exact_mod_cast fun hnil =>
            hv (List.length_eq_zero.mp (by exact_mod_cast hnil))
        rw [← hm2, List.length_map]
        exact div_mul_cancel₀ _ hlen

/-! ## Partitioning: the C7 even split specification -/

/-- Concatenating consecutive boundary slices of a list recovers its
prefix up to the last boundary. -/
theorem flatten_slices {α : Type} (a : List α) (b : ℕ → ℕ)
    (h0 : b 0 = 0) (hstep : ∀ i, b i ≤ b (i + 1)) :
    ∀ N, ((List.range N).map (fun i => (a.drop (b i)).take (b (i + 1) - b i))).flatten
      = a.take (b N) := by
  intro N
  induction N with
  | zero => simp [h0]
  | succ N ih =>
    rw [List.range_succ, List.map_append, List.flatten_append, ih]
    simp only [List.map_cons, List.map_nil, List.flatten_cons, List.flatten_nil,
      List.append_nil]
    have hs : b N + (b (N + 1) - b N) = b (N + 1) := by
      have := hstep N
      omega
    conv_rhs => rw [← hs]
    rw [List.take_add]

/-- C7: on a nonempty list and a positive worker count, `even_split`
produces at most `n` contiguous partitions whose concatenation is the
original list, none empty, with sizes differing by at most one element;
and the batch runner dispatches to the parallel pool exactly when the
worker count exceeds 1 and the number of interferograms exceeds 100. -/
theorem even_split_spec {α : Type} (a : List α) (n : ℕ) (ha : a ≠ []) (hn : 0 < n) :
    ∃ parts, even_split a n = some parts ∧
      parts.flatten = a ∧
      parts.length = min n a.length ∧
      parts.length ≤ n ∧
      (∀ p ∈ parts, p ≠ []) ∧
      (∀ p ∈ parts, ∀ q ∈ parts, p.length ≤ q.length + 1) ∧
      (∀ np ni, uses_parallel np ni = true ↔ 1 < np ∧ 100 < ni) := by
  have hL : 0 < a.length := List.length_pos.mpr ha
  have hn2 : 0 < min n a.length := lt_min hn hL
  have hneq : ¬ (min n a.length = 0) := Nat.pos_iff_ne_zero.mp hn2
  obtain ⟨parts, hparts⟩ : ∃ parts, even_split a n = some parts := by
    simp only [even_split, if_neg hneq]
    exact ⟨_, rfl⟩
  have hpe : parts = (List.range (min n a.length)).map (fun i =>
      (a.drop (i * (a.length / min n a.length) + min i (a.length % min n a.length))).take
        ((i + 1) * (a.length / min n a.length) +
            min (i + 1) (a.length % min n a.length) -
          (i * (a.length / min n a.length) + min i (a.length % min n a.length)))) := by
    have := hparts
    simp only [even_split, if_neg hneq] at this
    exact (Option.some.inj this).symm
  set n2 := min n a.length with hn2def
  set k := a.length / n2 with hkdef
  set m := a.length % n2 with hmdef
  have hk1 : 1 ≤ k := (Nat.one_le_div_iff hn2).mpr (min_le_right n a.length)
  have hmlt : m < n2 := Nat.mod_lt _ hn2
  have hstep : ∀ i : ℕ, (i + 1) * k + min (i + 1) m =
      i * k + min i m + k + (if i < m then 1 else 0) := by
    intro i
    rw [Nat.succ_mul]
    rcases Nat.lt_or_ge i m with h | h
    · rw [if_pos h]
      omega
    · rw [if_neg (not_lt.mpr h)]
      omega
  have hstep2 : ∀ i : ℕ, i * k + min i m ≤ (i + 1) * k + min (i + 1) m := by
    intro i
    rw [hstep i]
    omega
  have hmono : ∀ i j : ℕ, i ≤ j → i * k + min i m ≤ j * k + min j m := by
    intro i j hij
    induction hij with
    | refl => exact le_refl _
    | step hlt ih => exact le_trans ih (hstep2 _)
  have hbn : n2 * k + min n2 m = a.length := by
    rw [min_eq_right (le_of_lt hmlt)]
    exact Nat.div_add_mod a.length n2
  have hub : ∀ i, i < n2 → (i + 1) * k + min (i + 1) m ≤ a.length := by
    intro i hi
    have := hmono (i + 1) n2 hi
    omega
  have hlen_slice : ∀ i, i < n2 →
      ((a.drop (i * k + min i m)).take
        ((i + 1) * k + min (i + 1) m - (i * k + min i m))).length
        = k + (if i < m then 1 else 0) := by
    intro i hi
    rw [List.length_take, List.length_drop]
    have h1 := hub i hi
    have h2 := hstep i
    rcases Nat.lt_or_ge i m with h | h
    · rw [if_pos h] at h2 ⊢
      omega
    · rw [if_neg (not_lt.mpr h)] at h2 ⊢
      omega
  have hmem_len : ∀ p ∈ parts, ∃ c ≤ 1, p.length = k + c := by
    intro p hp
    rw [hpe] at hp
    obtain ⟨i, hi, hip⟩ := List.mem_map.mp hp
    have hi2 : i < n2 := List.mem_range.mp hi
    refine ⟨if i < m then 1 else 0, by split <;> omega, ?_⟩
    rw [← hip]
    exact hlen_slice i hi2
  refine ⟨parts, hparts, ?_, ?_, ?_, ?_, ?_, ?_⟩
  · have hj := flatten_slices a (fun i => i * k + min i m) (by simp) hstep2 n2
    rw [hpe]
    simpa [hbn] using hj
  · rw [hpe]
    simp
  · rw [hpe]
    simp only [List.length_map, List.length_range]
    exact min_le_left n a.length
  · intro p hp
    obtain ⟨c, hc, hlen⟩ := hmem_len p hp
    have : 0 < p.length := by omega
    exact List.length_pos.mp this
  · intro p hp q hq
    obtain ⟨cp, hcp, hlp⟩ := hmem_len p hp
    obtain ⟨cq, hcq, hlq⟩ := hmem_len q hq
    omega
  · intro np ni
    simp [uses_parallel]

/-- Witness for `even_split_spec`: seven elements over three workers. -/
theorem even_split_spec_witness :
    ∃ parts, even_split [1, 2, 3, 4, 5, 6, 7] 3 = some parts ∧
      parts.flatten = [1, 2, 3, 4, 5, 6, 7] ∧
      parts.length = min 3 ([1, 2, 3, 4, 5, 6, 7] : List ℕ).length ∧
      parts.length ≤ 3 ∧
      (∀ p ∈ parts, p ≠ []) ∧
      (∀ p ∈ parts, ∀ q ∈ parts, p.length ≤ q.length + 1) ∧
      (∀ np ni, uses_parallel np ni = true ↔ 1 < np ∧ 100 < ni) :=
  even_split_spec [1, 2, 3, 4, 5, 6, 7] 3 (by decide) (by decide)

/-! ## Sorting, unique labels, the statistics mode, and the C4 mode field -/

/-- Sorted insertion permutes to consing. -/
theorem perm_insert_sorted {α : Type} [LinearOrder α] (x : α) (l : List α) :
    List.Perm (insert_sorted x l) (x :: l) := by
  induction l with
  | nil => exact List.Perm.refl _
  | cons y ys ih =>
    by_cases h : x ≤ y
    · simp [insert_sorted, h]
    · simp only [insert_sorted, if_neg h]
      exact (List.Perm.cons y ih).trans (List.Perm.swap x y ys)

/-- The insertion sort permutes its input. -/
theorem perm_sort_list {α : Type} [LinearOrder α] (l : List α) :
    List.Perm (sort_list l) l := by
  induction l with
  | nil => exact List.Perm.refl _
  | cons a t ih =>
    exact (perm_insert_sorted a (sort_list t)).trans (List.Perm.cons a ih)

/-- Membership after sorted insertion. -/
theorem mem_insert_sorted {α : Type} [LinearOrder α] {x b : α} {l : List α} :
    b ∈ insert_sorted x l ↔ b = x ∨ b ∈ l := by
  rw [(perm_insert_sorted x l).mem_iff, List.mem_cons]

/-- Sorted insertion preserves sortedness. -/
theorem sorted_insert_sorted {α : Type} [LinearOrder α] (x : α) {l : List α}
    (hl : List.Sorted (· ≤ ·) l) : List.Sorted (· ≤ ·) (insert_sorted x l) := by
  induction l with
  | nil => simp [insert_sorted]
  | cons y ys ih =>
    rw [List.sorted_cons] at hl
    by_cases h : x ≤ y
    · have hy : List.Sorted (· ≤ ·) (y :: ys) := List.sorted_cons.mpr hl
      rw [insert_sorted, if_pos h, List.sorted_cons]
      refine ⟨?_, hy⟩
      intro b hb
      rcases List.mem_cons.mp hb with rfl | hb2
      · exact h
      · exact le_trans h (hl.1 b hb2)
    · rw [insert_sorted, if_neg h, List.sorted_cons]
      refine ⟨?_, ih hl.2⟩
      intro b hb
      rcases mem_insert_sorted.mp hb with rfl | hb2
      · exact le_of_lt (lt_of_not_le h)
      · exact hl.1 b hb2

/-- The insertion sort sorts. -/
theorem sorted_sort_list {α : Type} [LinearOrder α] (l : List α) :
    List.Sorted (· ≤ ·) (sort_list l) := by
  induction l with
  | nil => exact List.sorted_nil
  | cons a t ih => exact sorted_insert_sorted a ih

/-- `np.unique` keeps exactly the values of its input. -/
theorem mem_np_unique {a : ℤ} {l : List ℤ} : a ∈ np_unique l ↔ a ∈ l := by
  rw [np_unique, (perm_sort_list _).mem_iff, List.mem_dedup]

/-- `np.unique` has no duplicates. -/
theorem nodup_np_unique (l : List ℤ) : (np_unique l).Nodup :=
  ((perm_sort_list l.dedup).nodup_iff).mpr (List.nodup_dedup l)

/-- `np.unique` is sorted ascending. -/
theorem sorted_np_unique (l : List ℤ) : List.Sorted (· ≤ ·) (np_unique l) :=
  sorted_sort_list _

/-- `np.unique` is strictly sorted. -/
theorem strict_sorted_np_unique (l : List ℤ) : List.Pairwise (· < ·) (np_unique l) :=
  ((sorted_np_unique l).and (nodup_np_unique l)).imp
    (fun h => lt_of_le_of_ne h.1 h.2)

/-- The labels the component loop visits are exactly the labels that are
not minimal in the raster: `np.unique(con)[1:]` drops the smallest label
present, whatever it is. -/
theorem mem_uniq_components {con : List ℤ} {j : ℤ} :
    j ∈ uniq_components con ↔ j ∈ con ∧ ∃ i ∈ con, i < j := by
  unfold uniq_components
  rcases hu : np_unique con with _ | ⟨h0, t⟩
  · simp only [List.drop_nil, List.not_mem_nil, false_iff, not_and]
    intro hj
    rw [← mem_np_unique, hu] at hj
    cases hj
  · have hpw := strict_sorted_np_unique con
    rw [hu, List.pairwise_cons] at hpw
    simp only [List.drop_succ_cons, List.drop_zero]
    constructor
    · intro hjt
      have hju : j ∈ np_unique con := by
        rw [hu]; exact List.mem_cons_of_mem _ hjt
      refine ⟨mem_np_unique.mp hju, h0, ?_, hpw.1 j hjt⟩
      exact mem_np_unique.mp (by rw [hu]; exact List.mem_cons_self _ _)
    · rintro ⟨hj, i, hi, hij⟩
      have hju : j ∈ h0 :: t := by rw [← hu]; exact mem_np_unique.mpr hj
      rcases List.mem_cons.mp hju with rfl | hjt
      · have hiu : i ∈ np_unique con := mem_np_unique.mpr hi
        rw [hu] at hiu
        rcases List.mem_cons.mp hiu with rfl | hit
        · exact absurd hij (lt_irrefl _)
        · exact absurd hij (not_lt.mpr (le_of_lt (hpw.1 i hit)))
      · exact hjt

/-- A nonempty value list has a nonempty unique list. -/
theorem np_unique_ne_nil {l : List ℤ} (h : l ≠ []) : np_unique l ≠ [] := by
  rcases List.exists_mem_of_ne_nil l h with ⟨a, ha⟩
  intro hnil
  have hmem := mem_np_unique.mpr ha
  rw [hnil] at hmem
  cases hmem

/-- `stats.mode` fails exactly on the empty array. -/
theorem stats_mode_eq_none_iff (l : List ℤ) : stats_mode l = none ↔ l = [] := by
  constructor
  · intro h
    by_contra hne
    have hu := np_unique_ne_nil hne
    have hcne : counts_of l (np_unique l) ≠ [] := by simpa [counts_of] using hu
    have hlt : argmax_first (counts_of l (np_unique l)) < (np_unique l).length := by
      have h2 := argmax_first_lt_length _ hcne
      simpa [counts_of] using h2
    rw [stats_mode, List.getElem?_eq_getElem hlt] at h
    cases h
  · intro h
    subst h
    rfl

/-- On a nonempty array, `stats.mode` returns a most frequent value and,
among ties, the smallest one. -/
theorem stats_mode_spec (l : List ℤ) (h : l ≠ []) :
    ∃ mo, stats_mode l = some mo ∧ mo ∈ l ∧
      (∀ v, l.count v ≤ l.count mo) ∧
      (∀ v ∈ l, l.count v = l.count mo → mo ≤ v) := by
  have hu := np_unique_ne_nil h
  have hcne : counts_of l (np_unique l) ≠ [] := by simpa [counts_of] using hu
  set cnts := counts_of l (np_unique l) with hcnts
  set idx := argmax_first cnts with hidx
  have hclen : cnts.length = (np_unique l).length := by simp [hcnts, counts_of]
  have hlt : idx < (np_unique l).length := by
    have h2 := argmax_first_lt_length cnts hcne
    omega
  have hsome : stats_mode l = some ((np_unique l)[idx]) := by
    rw [stats_mode, List.getElem?_eq_getElem hlt]
  set mo := (np_unique l)[idx] with hmo
  have hcount_idx : cnts[idx]? = some (l.count mo) := by
    rw [hcnts]
    simp only [counts_of, List.getElem?_map]
    rw [List.getElem?_eq_getElem hlt]
    rfl
  have hmax := argmax_first_getElem cnts hcne
  rw [← hidx, hcount_idx] at hmax
  have hfm : l.count mo = fold_max cnts := Option.some.inj hmax
  have hmol : mo ∈ l := mem_np_unique.mp (List.getElem_mem hlt)
  refine ⟨mo, hsome, hmol, ?_, ?_⟩
  · intro v
    by_cases hv : v ∈ l
    · have hvu : v ∈ np_unique l := mem_np_unique.mpr hv
      have hmemc : l.count v ∈ cnts := by
        rw [hcnts]
        exact List.mem_map.mpr ⟨v, hvu, rfl⟩
      have := le_fold_max hmemc
      omega
    · rw [List.count_eq_zero.mpr hv]
      exact Nat.zero_le _
  · intro v hv hcnt
    have hvu : v ∈ np_unique l := mem_np_unique.mpr hv
    obtain ⟨iv, hivlt, hive⟩ := List.mem_iff_getElem.mp hvu
    have hcv : cnts[iv]? = some (l.count v) := by
      rw [hcnts]
      simp only [counts_of, List.getElem?_map]
      rw [List.getElem?_eq_getElem hivlt, hive]
      rfl
    by_cases hlt2 : iv < idx
    · have hcontra := lt_of_lt_argmax_first (hidx ▸ hlt2) hcv
      omega
    · have hle : idx ≤ iv := not_lt.mp hlt2
      rcases eq_or_lt_of_le hle with heq | hlt3
      · have hmv : mo = v := by
          rw [hmo, ← hive]
          congr 1
        exact le_of_eq hmv
      · have hsorted := sorted_np_unique l
        have hrel := List.pairwise_iff_getElem.mp hsorted idx iv hlt hivlt hlt3
        rw [← hive]
        exact hrel

/-- Length of a component-mode overwrite. -/
theorem assign_mode_length (con : List ℤ) (j : ℤ) (mv : ℚ) (acc : Raster) :
    (assign_mode con j mv acc).length = min con.length acc.length := by
  simp [assign_mode]

/-- Elementwise description of a component-mode overwrite. -/
theorem assign_mode_getElem {con : List ℤ} {acc : Raster} (j : ℤ) (mv : ℚ)
    {i : ℕ} (hc : i < con.length) (ha : i < acc.length) :
    (assign_mode con j mv acc)[i]? =
      if con[i] = j then some (some mv) else some acc[i] := by
  have hzip : (List.zip con acc)[i]? = some (con[i], acc[i]) :=
    List.getElem?_zip_eq_some.mpr
      ⟨List.getElem?_eq_getElem hc, List.getElem?_eq_getElem ha⟩
  rw [assign_mode, List.getElem?_map, hzip]
  by_cases hj : con[i] = j <;> simp [hj]

/-- Invariant of the component-mode loop: processing a duplicate-free
label list sets every pixel whose label was processed to that label
component mode and leaves every other pixel untouched. -/
theorem foldlM_mode_invariant (ri : Raster) (con : List ℤ) :
    ∀ (js : List ℤ), js.Nodup → ∀ (acc r : Raster), acc.length = con.length →
      List.foldlM (mode_step ri con) acc js = some r →
      r.length = con.length ∧
      (∀ (i : ℕ) (j : ℤ), con[i]? = some j →
        (j ∈ js → ∃ mo, stats_mode (component_int_values ri con j) = some mo ∧
          r[i]? = some (some (mo : ℚ))) ∧
        (j ∉ js → r[i]? = acc[i]?)) := by
  intro js
  induction js with
  | nil =>
    intro hnd acc r hlen hfold
    rw [List.foldlM_nil] at hfold
    have hra : acc = r := by simpa using hfold
    subst hra
    exact ⟨hlen, fun i j hij =>
      ⟨fun hmem => absurd hmem (List.not_mem_nil _), fun _ => rfl⟩⟩
  | cons j0 js ih =>
    intro hnd acc r hlen hfold
    rw [List.foldlM_cons] at hfold
    obtain ⟨acc2, hstep, hrest⟩ : ∃ acc2, mode_step ri con acc j0 = some acc2 ∧
        List.foldlM (mode_step ri con) acc2 js = some r :=
      Option.bind_eq_some.mp hfold
    obtain ⟨mo0, hmo0, hacc2⟩ : ∃ mo0,
        stats_mode (component_int_values ri con j0) = some mo0 ∧
        acc2 = assign_mode con j0 (mo0 : ℚ) acc := by
      unfold mode_step at hstep
      rcases hmm : stats_mode (component_int_values ri con j0) with _ | mo0
      · rw [hmm] at hstep; cases hstep
      · rw [hmm] at hstep
        exact ⟨mo0, rfl, (Option.some.inj hstep).symm⟩
    have hnd2 := List.nodup_cons.mp hnd
    have hlen2 : acc2.length = con.length := by
      rw [hacc2, assign_mode_length, hlen]
      simp
    obtain ⟨hrlen, hpix⟩ := ih hnd2.2 acc2 r hlen2 hrest
    refine ⟨hrlen, fun i j hij => ?_⟩
    obtain ⟨hic, hie⟩ := List.getElem?_eq_some.mp hij
    have hia : i < acc.length := by omega
    have hassign := assign_mode_getElem j0 (mo0 : ℚ) hic hia
    constructor
    · intro hmem
      rcases List.mem_cons.mp hmem with rfl | hmem2
      · have hr_eq : r[i]? = acc2[i]? := (hpix i j hij).2 hnd2.1
        refine ⟨mo0, hmo0, ?_⟩
        rw [hr_eq, hacc2, hassign, if_pos hie]
      · exact (hpix i j hij).1 hmem2
    · intro hnotmem
      have hj0 : j ≠ j0 := fun he => hnotmem (he ▸ List.mem_cons_self j0 js)
      have hjs : j ∉ js := fun hm => hnotmem (List.mem_cons_of_mem _ hm)
      have hr_eq : r[i]? = acc2[i]? := (hpix i j hij).2 hjs
      rw [hr_eq, hacc2, hassign, if_neg (by rw [hie]; exact hj0)]
      exact (List.getElem?_eq_getElem hia).symm

/-- C4 (amended): in the mode field, every pixel whose label is not the
smallest label present in the raster receives the statistical mode (most
frequent integer, smallest among ties) of its component over the valid
pixels, while pixels bearing the smallest label present keep their
per-pixel rounded value.  When label 0 occurs and all labels are
non-negative this coincides with the original claim; in general the loop
excludes the smallest label, not label 0. -/
theorem build_res_mode_amended (ri : Raster) (con : List ℤ) (r : Raster)
    (hlen : ri.length = con.length)
    (hr : build_res_mode ri con = some r) :
    r.length = con.length ∧
    ∀ (i : ℕ) (j : ℤ), con[i]? = some j →
      ((∃ i2 ∈ con, i2 < j) →
        ∃ mo, stats_mode (component_int_values ri con j) = some mo ∧
          mo ∈ component_int_values ri con j ∧
          (∀ v, (component_int_values ri con j).count v ≤
            (component_int_values ri con j).count mo) ∧
          (∀ v ∈ component_int_values ri con j,
            (component_int_values ri con j).count v =
              (component_int_values ri con j).count mo → mo ≤ v) ∧
          r[i]? = some (some (mo : ℚ))) ∧
      ((∀ i2 ∈ con, j ≤ i2) → r[i]? = ri[i]?) := by
  have hnd : (uniq_components con).Nodup :=
    (List.drop_sublist 1 _).nodup (nodup_np_unique con)
  obtain ⟨hrlen, hpix⟩ :=
    foldlM_mode_invariant ri con (uniq_components con) hnd ri r hlen hr
  refine ⟨hrlen, fun i j hij => ?_⟩
  constructor
  · intro hex
    have hjc : j ∈ con := List.getElem?_mem hij
    have hju : j ∈ uniq_components con := mem_uniq_components.mpr ⟨hjc, hex⟩
    obtain ⟨mo, hmo, hri⟩ := (hpix i j hij).1 hju
    have hvne : component_int_values ri con j ≠ [] := by
      intro hnil
      rw [(stats_mode_eq_none_iff _).mpr hnil] at hmo
      cases hmo
    obtain ⟨mo2, hmo2, hmem, hcnt, htie⟩ := stats_mode_spec _ hvne
    rw [hmo] at hmo2
    have hmoeq : mo2 = mo := Option.some.inj hmo2.symm
    subst hmoeq
    exact ⟨mo2, hmo, hmem, hcnt, htie, hri⟩
  · intro hall
    have hnotin : j ∉ uniq_components con := by
      intro hju
      obtain ⟨-, i2, hi2, hlt⟩ := mem_uniq_components.mp hju
      exact absurd hlt (not_lt.mpr (hall i2 hi2))
    exact (hpix i j hij).2 hnotin

/-- Witness for `build_res_mode_amended` on a three-pixel raster. -/
theorem build_res_mode_amended_witness :
    ∃ r, build_res_mode [some 1, some 1, some 2] [0, 1, 1] = some r ∧
      r.length = ([0, 1, 1] : List ℤ).length :=
  ⟨[some 1, some 1, some 1], by with_unfolding_all decide,
    (build_res_mode_amended [some 1, some 1, some 2] [0, 1, 1]
      [some 1, some 1, some 1] (by with_unfolding_all decide)
      (by with_unfolding_all decide)).1⟩

/-- The C4 claim as stated: every positively labeled pixel receives its
component mode and every zero-labeled pixel keeps its per-pixel rounded
value (label 0 being the only excluded label). -/
def spec_mode_claim (ri : Raster) (con : List ℤ) : Prop :=
  ∀ r, build_res_mode ri con = some r →
    ∀ (i : ℕ) (j : ℤ), con[i]? = some j →
      (0 < j → ∃ mo, stats_mode (component_int_values ri con j) = some mo ∧
        r[i]? = some (some (mo : ℚ))) ∧
      (j = 0 → r[i]? = ri[i]?)

/-- C4 (counterexample): on a raster whose labels are all 1, with no
label 0, the loop over `np.unique(con)[1:]` visits no label at all, so
the positively labeled pixels do not receive their component mode (which
would be 0 here): the claim as stated fails on the code. -/
theorem spec_mode_claim_counterexample :
    ¬ spec_mode_claim [some 0, some 1] [1, 1] := by
  intro h
  obtain ⟨mo, hmo, hr⟩ :=
    (h [some 0, some 1] (by with_unfolding_all decide) 1 1
      (by with_unfolding_all decide)).1 one_pos
  have hmo2 : stats_mode (component_int_values [some 0, some 1] [1, 1] 1) =
      some 0 := by
    with_unfolding_all decide
  rw [hmo2] at hmo
  have hmoeq : mo = 0 := (Option.some.inj hmo).symm
  subst hmoeq
  exact absurd hr (by with_unfolding_all decide)

/-! ## The relaxation loop: C6 invariants -/

/-- Inductive core of the relaxation-loop invariants: thresholds never
decrease, accepted pairs stay accepted, every newly accepted pair comes
from the bad list, and the bad list never grows. -/
theorem relax_loop_core {P : Type} (d : ℚ → ℚ → P → IfgCategory)
    (ev : List P → ℕ × List P) :
    ∀ (fuel : ℕ) (s : LoopState P) (g : ℕ × List P),
      s.correction_thresh ≤ (relax_loop d ev fuel s g).1.correction_thresh ∧
      s.target_thresh ≤ (relax_loop d ev fuel s g).1.target_thresh ∧
      (∀ p ∈ s.good_ifg, p ∈ (relax_loop d ev fuel s g).1.good_ifg) ∧
      (∀ p ∈ s.ifg_corrected_by_mode,
        p ∈ (relax_loop d ev fuel s g).1.ifg_corrected_by_mode) ∧
      (∀ p ∈ s.ifg_corrected_by_integer,
        p ∈ (relax_loop d ev fuel s g).1.ifg_corrected_by_integer) ∧
      (∀ p ∈ (relax_loop d ev fuel s g).1.good_ifg,
        p ∈ s.good_ifg ∨ p ∈ s.bad_ifg_not_corrected) ∧
      (∀ p ∈ (relax_loop d ev fuel s g).1.ifg_corrected_by_mode,
        p ∈ s.ifg_corrected_by_mode ∨ p ∈ s.bad_ifg_not_corrected) ∧
      (∀ p ∈ (relax_loop d ev fuel s g).1.ifg_corrected_by_integer,
        p ∈ s.ifg_corrected_by_integer ∨ p ∈ s.bad_ifg_not_corrected) ∧
      (∀ p ∈ (relax_loop d ev fuel s g).1.bad_ifg_not_corrected,
        p ∈ s.bad_ifg_not_corrected) := by
  intro fuel
  induction fuel with
  | zero =>
    intro s g
    exact ⟨le_refl _, le_refl _, fun p hp => hp, fun p hp => hp, fun p hp => hp,
      fun p hp => Or.inl hp, fun p hp => Or.inl hp, fun p hp => Or.inl hp,
      fun p hp => hp⟩
  | succ fuel ih =>
    intro s g
    by_cases hg : g.1 = 0
    · have hred : relax_loop d ev (fuel + 1) s g = (s, g) := by
        simp [relax_loop, hg]
      rw [hred]
      exact ⟨le_refl _, le_refl _, fun p hp => hp, fun p hp => hp, fun p hp => hp,
        fun p hp => Or.inl hp, fun p hp => Or.inl hp, fun p hp => Or.inl hp,
        fun p hp => hp⟩
    · have hred : relax_loop d ev (fuel + 1) s g =
          relax_loop d ev fuel (relax_step d s)
            (ev (retained (relax_step d s))) := by
        simp [relax_loop, hg]
      rw [hred]
      obtain ⟨h1, h2, h3, h4, h5, h6, h7, h8, h9⟩ :=
        ih (relax_step d s) (ev (retained (relax_step d s)))
      have hct : (relax_step d s).correction_thresh =
          s.correction_thresh + 1 / 20 := rfl
      have htt : (relax_step d s).target_thresh = s.target_thresh + 1 / 20 := rfl
      have hgood2 : (relax_step d s).good_ifg = s.good_ifg ++
          s.bad_ifg_not_corrected.filter (fun p =>
            decide (d (s.correction_thresh + 1 / 20) (s.target_thresh + 1 / 20) p =
              IfgCategory.good)) := rfl
      have hmode2 : (relax_step d s).ifg_corrected_by_mode =
          s.ifg_corrected_by_mode ++
          s.bad_ifg_not_corrected.filter (fun p =>
            decide (d (s.correction_thresh + 1 / 20) (s.target_thresh + 1 / 20) p =
              IfgCategory.mode_corrected)) := rfl
      have hint2 : (relax_step d s).ifg_corrected_by_integer =
          s.ifg_corrected_by_integer ++
          s.bad_ifg_not_corrected.filter (fun p =>
            decide (d (s.correction_thresh + 1 / 20) (s.target_thresh + 1 / 20) p =
              IfgCategory.integer_corrected)) := rfl
      have hbad2 : (relax_step d s).bad_ifg_not_corrected =
          s.bad_ifg_not_corrected.filter (fun p =>
            decide (d (s.correction_thresh + 1 / 20) (s.target_thresh + 1 / 20) p =
              IfgCategory.bad)) := rfl
      refine ⟨?_, ?_, ?_, ?_, ?_, ?_, ?_, ?_, ?_⟩
      · refine le_trans ?_ h1
        rw [hct]
        linarith
      · refine le_trans ?_ h2
        rw [htt]
        linarith
      · intro p hp
        exact h3 p (by rw [hgood2]; exact List.mem_append_left _ hp)
      · intro p hp
        exact h4 p (by rw [hmode2]; exact List.mem_append_left _ hp)
      · intro p hp
        exact h5 p (by rw [hint2]; exact List.mem_append_left _ hp)
      · intro p hp
        rcases h6 p hp with hp2 | hp2
        · rw [hgood2] at hp2
          rcases List.mem_append.mp hp2 with hp3 | hp3
          · exact Or.inl hp3
          · exact Or.inr (List.mem_of_mem_filter hp3)
        · rw [hbad2] at hp2
          exact Or.inr (List.mem_of_mem_filter hp2)
      · intro p hp
        rcases h7 p hp with hp2 | hp2
        · rw [hmode2] at hp2
          rcases List.mem_append.mp hp2 with hp3 | hp3
          · exact Or.inl hp3
          · exact Or.inr (List.mem_of_mem_filter hp3)
        · rw [hbad2] at hp2
          exact Or.inr (List.mem_of_mem_filter hp2)
      · intro p hp
        rcases h8 p hp with hp2 | hp2
        · rw [hint2] at hp2
          rcases List.mem_append.mp hp2 with hp3 | hp3
          · exact Or.inl hp3
          · exact Or.inr (List.mem_of_mem_filter hp3)
        · rw [hbad2] at hp2
          exact Or.inr (List.mem_of_mem_filter hp2)
      · intro p hp
        have hp2 := h9 p hp
        rw [hbad2] at hp2
        exact List.mem_of_mem_filter hp2

/-- C6: over any number of relaxation iterations, `correction_thresh` and
`target_thresh` are non-decreasing (each step adds exactly 0.05 to both,
and this step runs only when the gap count is positive), a step re-runs
the batch decision exactly on the pairs currently categorised bad,
previously accepted pairs keep their category (so the retained set is
non-shrinking, and every newly accepted pair was previously bad), and the
loop returns without stepping exactly when the gap count is zero. -/
theorem relaxation_loop_invariants {P : Type} (d : ℚ → ℚ → P → IfgCategory)
    (ev : List P → ℕ × List P) (fuel : ℕ) (s : LoopState P) (g : ℕ × List P) :
    (s.correction_thresh ≤ (relax_loop d ev fuel s g).1.correction_thresh ∧
      s.target_thresh ≤ (relax_loop d ev fuel s g).1.target_thresh) ∧
    ((relax_step d s).correction_thresh = s.correction_thresh + 1 / 20 ∧
      (relax_step d s).target_thresh = s.target_thresh + 1 / 20 ∧
      relax_step d s = classify_batch d
        { s with correction_thresh := s.correction_thresh + 1 / 20,
                 target_thresh := s.target_thresh + 1 / 20 }
        s.bad_ifg_not_corrected) ∧
    (∀ p ∈ s.good_ifg, p ∈ (relax_loop d ev fuel s g).1.good_ifg) ∧
    (∀ p ∈ s.ifg_corrected_by_mode,
      p ∈ (relax_loop d ev fuel s g).1.ifg_corrected_by_mode) ∧
    (∀ p ∈ s.ifg_corrected_by_integer,
      p ∈ (relax_loop d ev fuel s g).1.ifg_corrected_by_integer) ∧
    (∀ p ∈ retained s, p ∈ retained (relax_loop d ev fuel s g).1) ∧
    (∀ p ∈ (relax_loop d ev fuel s g).1.good_ifg,
      p ∈ s.good_ifg ∨ p ∈ s.bad_ifg_not_corrected) ∧
    (∀ p ∈ (relax_loop d ev fuel s g).1.ifg_corrected_by_mode,
      p ∈ s.ifg_corrected_by_mode ∨ p ∈ s.bad_ifg_not_corrected) ∧
    (∀ p ∈ (relax_loop d ev fuel s g).1.ifg_corrected_by_integer,
      p ∈ s.ifg_corrected_by_integer ∨ p ∈ s.bad_ifg_not_corrected) ∧
    (g.1 = 0 → relax_loop d ev fuel s g = (s, g)) ∧
    (∀ (f : ℕ) (s2 : LoopState P) (g2 : ℕ × List P), 0 < g2.1 →
      relax_loop d ev (f + 1) s2 g2 =
        relax_loop d ev f (relax_step d s2)
          (ev (retained (relax_step d s2)))) := by
  obtain ⟨h1, h2, h3, h4, h5, h6, h7, h8, h9⟩ := relax_loop_core d ev fuel s g
  refine ⟨⟨h1, h2⟩, ⟨rfl, rfl, rfl⟩, h3, h4, h5, ?_, h6, h7, h8, ?_, ?_⟩
  · intro p hp
    unfold retained at hp ⊢
    rcases List.mem_append.mp hp with hp2 | hp2
    · rcases List.mem_append.mp hp2 with hp3 | hp3
      · exact List.mem_append_left _ (List.mem_append_left _ (h3 p hp3))
      · exact List.mem_append_left _ (List.mem_append_right _ (h4 p hp3))
    · exact List.mem_append_right _ (h5 p hp2)
  · intro hg
    cases fuel with
    | zero => rfl
    | succ f => simp [relax_loop, hg]
  · intro f s2 g2 hg2
    have hne : ¬ g2.1 = 0 := Nat.pos_iff_ne_zero.mp hg2
    simp [relax_loop, hne]

/-! ## Report files: C8 -/

/-- The C8 ordering claim fails: a batch processed in the order [2, 1]
(the glob order is arbitrary, and later iterations append previously bad
pairs after earlier entries) produces a good-category report file whose
lines are exactly [2, 1], not in natural sort order. -/
theorem report_not_sorted_counterexample :
    write_report (fun _ => none) "good"
        (classify_batch (fun _ _ _ => IfgCategory.good)
          ⟨3 / 10, 3 / 10, [], [], [], []⟩ [2, 1]).good_ifg "good"
      = some [2, 1] ∧
    ¬ List.Sorted (· ≤ ·) ([2, 1] : List ℕ) := by
  constructor
  · with_unfolding_all decide
  · decide

/-- C8 (amended): each category report file is rewritten from scratch on
every save, one pair id per line, the content being exactly the category
list in the order pairs entered the category (earlier iterations first,
then the current batch in its processing order) - not in natural sort
order; a write replaces any previous content of that file and leaves
every other file untouched. -/
theorem save_reports_amended {P : Type} (store store2 : String → Option (List P))
    (name other : String) (lines : List P) (d : ℚ → ℚ → P → IfgCategory)
    (s : LoopState P) :
    write_report store name lines name = some lines ∧
    write_report store name lines name = write_report store2 name lines name ∧
    (other ≠ name → write_report store name lines other = store other) ∧
    (relax_step d s).good_ifg = s.good_ifg ++
      s.bad_ifg_not_corrected.filter (fun p =>
        decide (d (s.correction_thresh + 1 / 20) (s.target_thresh + 1 / 20) p =
          IfgCategory.good)) := by
  refine ⟨?_, ?_, ?_, rfl⟩
  · simp [write_report]
  · simp [write_report]
  · intro h
    simp [write_report, h]

/-! ## Threshold selection: C9 -/

/-- The C9 claim fails at the override value 0: Python truthiness treats
an explicit `-s 0.0` as absent, so the metadata file is consulted and the
selection mode is honoured instead of the override. -/
theorem get_para_zero_override_counterexample :
    get_para (some 0) (some ⟨1, 2, 3, 4⟩) TargetMode.median = some (1, 3) ∧
    get_para (some 0) (some ⟨1, 2, 3, 4⟩) TargetMode.median ≠ some (0, 0) := by
  with_unfolding_all decide

/-- C9 (amended): when a NONZERO correction-threshold override is
supplied, both thresholds are set to that override value; the metadata
file is not consulted for either threshold and the target-threshold
selection mode is ignored (the result does not depend on them). -/
theorem get_para_nonzero_override (c : ℚ) (hc : c ≠ 0)
    (residFile : Option ResidTxt) (tmode : TargetMode) :
    get_para (some c) residFile tmode = some (c, c) := by
  simp [get_para, truthy, hc]

/-- Witness for `get_para_nonzero_override` at override one half. -/
theorem get_para_nonzero_override_witness :
    get_para (some (1 / 2)) (some ⟨1, 2, 3, 4⟩) TargetMode.median =
      some (1 / 2, 1 / 2) :=
  get_para_nonzero_override (1 / 2) (by norm_num) (some ⟨1, 2, 3, 4⟩)
    TargetMode.median

/-! ## Network evaluation: C10 -/

/-- C10: the network evaluation returns gap count 1 with an empty
strong-link list when the retained set is empty, and likewise when the
separated strong-link set is empty; consequently a zero gap count can
only be reported with a nonempty retained set and a nonempty returned
strong-link list, so the relaxation loop converges only in that case. -/
theorem plot_networks_gap_zero {P : Type} [LinearOrder P]
    (sep : List P → List P × List P) (net_gap : List P → List P → ℕ)
    (r : List P) :
    (r = [] → plot_networks sep net_gap r = (1, [])) ∧
    ((sep (sort_list r)).1 = [] → plot_networks sep net_gap r = (1, [])) ∧
    ((plot_networks sep net_gap r).1 = 0 →
      r ≠ [] ∧ (plot_networks sep net_gap r).2 ≠ []) := by
  refine ⟨?_, ?_, ?_⟩
  · intro h
    subst h
    rfl
  · intro h
    by_cases hr : r.length = 0
    · simp [plot_networks, hr]
    · simp [plot_networks, hr, h]
  · intro h
    by_cases hr : r.length = 0
    · simp [plot_networks, hr] at h
    · by_cases hs : (sep (sort_list r)).1.length = 0
      · simp [plot_networks, hr, hs] at h
      · constructor
        · intro hnil
          exact hr (by rw [hnil]; rfl)
        · have h2 : (plot_networks sep net_gap r).2 = (sep (sort_list r)).1 := by
            simp [plot_networks, hr, hs]
          rw [h2]
          intro hnil
          exact hs (by rw [hnil]; rfl)

end Licsbas
